import Mathlib

/-!
Verification of the dependency-aware workload scheduler and the server-side
cycle checker of the workload orchestrator.

The definitions below are a shallow embedding of the Rust sources:
  * `agent/src/workload_scheduler/dependency_state_validator.rs`
  * `agent/src/workload_scheduler/scheduler.rs`
  * `server/src/server_state.rs` (module `cyclic_check`)
Maps (`HashMap`, `HashSet`, `VecDeque`) are embedded as association lists and
plain lists; mutation of the scheduler state is embedded as explicit
queue-passing.  The `fulfilled_by` methods of `AddCondition` and
`DeleteCondition` live in `common/src/objects`, which is not part of the
sources under study; they are modelled from the specification's tables.
-/

namespace Ankaios

/-- Execution state of a workload (`common::objects::ExecutionState`);
the lifecycle values named by the specification. -/
inductive ExecutionState where
  | pending
  | running
  | succeeded
  | failed
  | stopping
  | removed
  | waitingToStart
  | waitingToStop
deriving DecidableEq

/-- Condition on a dependency state gating creation (`AddCondition`). -/
inductive AddCondition where
  | addCondRunning
  | addCondSucceeded
  | addCondFailed
deriving DecidableEq

/-- Condition on a dependency state gating deletion (`DeleteCondition`). -/
inductive DeleteCondition where
  | delCondRunning
  | delCondNotPendingNorRunning
deriving DecidableEq

/-- Modelled from the spec: `AddCondition::fulfilled_by` (the implementation in
`common/src/objects` is not among the sources under study).  Table of section 3:
AddCondRunning is fulfilled exactly by Running, AddCondSucceeded exactly by
Succeeded, AddCondFailed exactly by Failed. -/
def AddCondition.fulfilledBy : AddCondition → ExecutionState → Bool
  | .addCondRunning, .running => true
  | .addCondRunning, _ => false
  | .addCondSucceeded, .succeeded => true
  | .addCondSucceeded, _ => false
  | .addCondFailed, .failed => true
  | .addCondFailed, _ => false

/-- Modelled from the spec: `DeleteCondition::fulfilled_by` (the implementation
in `common/src/objects` is not among the sources under study).  Table of
section 3: DelCondRunning is fulfilled exactly by Running;
DelCondNotPendingNorRunning by any state not in {Pending, Running}. -/
def DeleteCondition.fulfilledBy : DeleteCondition → ExecutionState → Bool
  | .delCondRunning, .running => true
  | .delCondRunning, _ => false
  | .delCondNotPendingNorRunning, .pending => false
  | .delCondNotPendingNorRunning, .running => false
  | .delCondNotPendingNorRunning, _ => true

/-- Workload instance name; the scheduler uses its `workload_name` component as
the queue key and the whole name in waiting-state notifications. -/
structure InstanceName where
  workloadName : String
  agentName : String
deriving DecidableEq

/-- `common::objects::WorkloadSpec`, restricted to the fields the scheduler and
the cycle checker read: the instance name and the dependency map
(workload name → AddCondition), embedded as an association list. -/
structure WorkloadSpec where
  instanceName : InstanceName
  dependencies : List (String × AddCondition)
deriving DecidableEq

/-- `common::objects::DeletedWorkload`: instance name and dependency map
(workload name → DeleteCondition). -/
structure DeletedWorkload where
  instanceName : InstanceName
  dependencies : List (String × DeleteCondition)
deriving DecidableEq

/-- Association-list lookup; embeds `HashMap::get`. -/
def lookupName {α : Type} : List (String × α) → String → Option α
  | [], _ => none
  | p :: rest, n => if p.1 = n then some p.2 else lookupName rest n

/-- The execution-state store (`ParameterStorage`): workload name → latest
known execution state.  `lookupName` embeds `get_state_of_workload`. -/
abbrev ParameterStorage := List (String × ExecutionState)

/-- `DependencyStateValidator::create_fulfilled`
(dependency_state_validator.rs, lines 27-36): all dependencies must have a
known state fulfilling their add condition (`map_or(false, ..)`). -/
def createFulfilled (workload : WorkloadSpec) (db : ParameterStorage) : Bool :=
  workload.dependencies.all fun p =>
    match lookupName db p.1 with
    | none => false
    | some st => p.2.fulfilledBy st

/-- `DependencyStateValidator::delete_fulfilled`
(dependency_state_validator.rs, lines 38-50): every dependency either has no
known state or its state fulfils the delete condition (`map_or(true, ..)`). -/
def deleteFulfilled (workload : DeletedWorkload) (db : ParameterStorage) : Bool :=
  workload.dependencies.all fun p =>
    match lookupName db p.1 with
    | none => true
    | some st => p.2.fulfilledBy st

/-- `WorkloadOperation` (agent/src/workload_operation.rs as used by the
scheduler). -/
inductive WorkloadOperation where
  | create (spec : WorkloadSpec)
  | update (newSpec : WorkloadSpec) (oldWorkload : DeletedWorkload)
  | updateDeleteOnly (oldWorkload : DeletedWorkload)
  | delete (oldWorkload : DeletedWorkload)
deriving DecidableEq

/-- `PendingEntry` (scheduler.rs, lines 32-38).  Note there is no
`UpdateDeleteOnly` variant: that operation can never be persisted. -/
inductive PendingEntry where
  | create (spec : WorkloadSpec)
  | delete (oldWorkload : DeletedWorkload)
  | updateCreate (newSpec : WorkloadSpec) (oldWorkload : DeletedWorkload)
  | updateDelete (newSpec : WorkloadSpec) (oldWorkload : DeletedWorkload)
deriving DecidableEq

/-- The pending queue (`WorkloadOperationQueue = HashMap<String, PendingEntry>`),
embedded as an association list with `HashMap::insert` semantics (`qinsert`). -/
abbrev WorkloadOperationQueue := List (String × PendingEntry)

/-- `HashMap::insert`: replace the value under an existing key, otherwise add
the binding. -/
def qinsert (q : WorkloadOperationQueue) (k : String) (v : PendingEntry) :
    WorkloadOperationQueue :=
  if q.any fun p => p.1 = k then
    q.map fun p => if p.1 = k then (k, v) else p
  else
    q ++ [(k, v)]

/-- A waiting-state notification sent through the workload-state sender:
the reported instance name and execution state. -/
abbrev StateNotification := InstanceName × ExecutionState

/-- `report_pending_create_state` (scheduler.rs, lines 56-63). -/
def reportPendingCreateState (w : WorkloadSpec) : StateNotification :=
  (w.instanceName, .waitingToStart)

/-- `report_pending_delete_state` (scheduler.rs, lines 65-72). -/
def reportPendingDeleteState (d : DeletedWorkload) : StateNotification :=
  (d.instanceName, .waitingToStop)

/-- Result of one scheduler action: the ready operations returned, the pending
queue after the action, and the waiting-state notifications sent. -/
structure StepResult where
  ready : List WorkloadOperation
  queue : WorkloadOperationQueue
  notes : List StateNotification
deriving DecidableEq

/-- `enqueue_pending_create` (scheduler.rs, lines 74-95), with the queue passed
explicitly in place of `&mut self`. -/
def enqueuePendingCreate (newWorkloadSpec : WorkloadSpec) (db : ParameterStorage)
    (notifyOnNewEntry : Bool) (q : WorkloadOperationQueue) : StepResult :=
  if createFulfilled newWorkloadSpec db then
    ⟨[.create newWorkloadSpec], q, []⟩
  else
    ⟨[], qinsert q newWorkloadSpec.instanceName.workloadName (.create newWorkloadSpec),
      if notifyOnNewEntry then [reportPendingCreateState newWorkloadSpec] else []⟩

/-- `enqueue_pending_delete` (scheduler.rs, lines 97-118). -/
def enqueuePendingDelete (deletedWorkload : DeletedWorkload) (db : ParameterStorage)
    (notifyOnNewEntry : Bool) (q : WorkloadOperationQueue) : StepResult :=
  if deleteFulfilled deletedWorkload db then
    ⟨[.delete deletedWorkload], q, []⟩
  else
    ⟨[], qinsert q deletedWorkload.instanceName.workloadName (.delete deletedWorkload),
      if notifyOnNewEntry then [reportPendingDeleteState deletedWorkload] else []⟩

/-- `enqueue_pending_update` (scheduler.rs, lines 120-169).  Note the
`WaitingToStart` report in the delete-fulfilled branch is not gated by
`notify_on_new_entry` (line 149), while the `WaitingToStop` report is
(lines 159-161). -/
def enqueuePendingUpdate (newWorkloadSpec : WorkloadSpec)
    (deletedWorkload : DeletedWorkload) (db : ParameterStorage)
    (notifyOnNewEntry : Bool) (q : WorkloadOperationQueue) : StepResult :=
  if createFulfilled newWorkloadSpec db && deleteFulfilled deletedWorkload db then
    ⟨[.update newWorkloadSpec deletedWorkload], q, []⟩
  else if deleteFulfilled deletedWorkload db then
    ⟨[.updateDeleteOnly deletedWorkload],
      qinsert q newWorkloadSpec.instanceName.workloadName
        (.updateCreate newWorkloadSpec deletedWorkload),
      [reportPendingCreateState newWorkloadSpec]⟩
  else
    ⟨[], qinsert q newWorkloadSpec.instanceName.workloadName
        (.updateDelete newWorkloadSpec deletedWorkload),
      if notifyOnNewEntry then [reportPendingDeleteState deletedWorkload] else []⟩

/-- Combine an accumulated `StepResult` with the result of one enqueue action
performed on the accumulator's queue (mirrors
`ready_workload_operations.extend(..)` plus the queue mutation). -/
def extendWith (acc : StepResult) (r : StepResult) : StepResult :=
  ⟨acc.ready ++ r.ready, r.queue, acc.notes ++ r.notes⟩

/-- One iteration of the drain loop of `next_workload_operations`
(scheduler.rs, lines 237-287): dispatch on the drained `PendingEntry`.
All calls pass `notify_on_new_entry = false` (line 236). -/
def processQueueEntry (db : ParameterStorage) (acc : StepResult)
    (e : PendingEntry) : StepResult :=
  match e with
  | .create spec => extendWith acc (enqueuePendingCreate spec db false acc.queue)
  | .delete old => extendWith acc (enqueuePendingDelete old db false acc.queue)
  | .updateCreate newSpec old =>
    if createFulfilled newSpec db then
      ⟨acc.ready ++ [.update newSpec old], acc.queue, acc.notes⟩
    else
      ⟨acc.ready,
        qinsert acc.queue newSpec.instanceName.workloadName (.updateCreate newSpec old),
        acc.notes⟩
  | .updateDelete newSpec old =>
    extendWith acc (enqueuePendingUpdate newSpec old db false acc.queue)

/-- `next_workload_operations` (scheduler.rs, lines 222-289): drain the whole
queue, re-enqueue still-pending entries, return the ready operations. -/
def nextWorkloadOperations (db : ParameterStorage)
    (q : WorkloadOperationQueue) : StepResult :=
  (q.map Prod.snd).foldl (processQueueEntry db) ⟨[], [], []⟩

/-- One iteration of the input loop of `enqueue_filtered_workload_operations`
(scheduler.rs, lines 178-215); `notify_on_new_entry = true` (line 177);
`UpdateDeleteOnly` input is logged and dropped (lines 211-213). -/
def processInputOperation (db : ParameterStorage) (acc : StepResult)
    (op : WorkloadOperation) : StepResult :=
  match op with
  | .create spec => extendWith acc (enqueuePendingCreate spec db true acc.queue)
  | .update newSpec old => extendWith acc (enqueuePendingUpdate newSpec old db true acc.queue)
  | .delete old => extendWith acc (enqueuePendingDelete old db true acc.queue)
  | .updateDeleteOnly _ => acc

/-- `enqueue_filtered_workload_operations` (scheduler.rs, lines 171-220):
process the input batch, then sweep the queue via
`next_workload_operations` and concatenate (line 218). -/
def enqueueFilteredWorkloadOperations (ops : List WorkloadOperation)
    (db : ParameterStorage) (q : WorkloadOperationQueue) : StepResult :=
  let r := ops.foldl (processInputOperation db) ⟨[], q, []⟩
  extendWith r (nextWorkloadOperations db r.queue)

/-! Helper lemmas about the dependency evaluator. -/

theorem createDepCheck_iff (db : ParameterStorage) (p : String × AddCondition) :
    (match lookupName db p.1 with
      | none => false
      | some st => p.2.fulfilledBy st) = true
      ↔ ∃ st, lookupName db p.1 = some st ∧ p.2.fulfilledBy st = true := by
  cases h : lookupName db p.1 <;> simp [h]

theorem deleteDepCheck_iff (db : ParameterStorage) (p : String × DeleteCondition) :
    (match lookupName db p.1 with
      | none => true
      | some st => p.2.fulfilledBy st) = true
      ↔ (lookupName db p.1 = none ∨
          ∃ st, lookupName db p.1 = some st ∧ p.2.fulfilledBy st = true) := by
  cases h : lookupName db p.1 <;> simp [h]

theorem createFulfilled_iff_all (w : WorkloadSpec) (db : ParameterStorage) :
    createFulfilled w db = true ↔
      ∀ p ∈ w.dependencies, ∃ st, lookupName db p.1 = some st ∧ p.2.fulfilledBy st = true := by
  simp only [createFulfilled, List.all_eq_true, createDepCheck_iff]

theorem deleteFulfilled_iff_all (d : DeletedWorkload) (db : ParameterStorage) :
    deleteFulfilled d db = true ↔
      ∀ p ∈ d.dependencies, lookupName db p.1 = none ∨
        ∃ st, lookupName db p.1 = some st ∧ p.2.fulfilledBy st = true := by
  simp only [deleteFulfilled, List.all_eq_true, deleteDepCheck_iff]

/-! Claim theorems for the dependency evaluator. -/

/-- C3: `create_fulfilled(spec, store)` returns true iff every dependency has a
known state fulfilling its add condition per the AddCondition table; an unknown
dependency state yields false, and a spec with no dependencies yields true. -/
theorem create_fulfilled_characterisation (w : WorkloadSpec) (db : ParameterStorage) :
    (createFulfilled w db = true ↔
      ∀ p ∈ w.dependencies, ∃ st, lookupName db p.1 = some st ∧ p.2.fulfilledBy st = true)
    ∧ (w.dependencies = [] → createFulfilled w db = true)
    ∧ (∀ p ∈ w.dependencies, lookupName db p.1 = none → createFulfilled w db = false) := by
  refine ⟨createFulfilled_iff_all w db, ?_, ?_⟩
  · intro h
    simp [createFulfilled, h]
  · intro p hp hnone
    cases hcf : createFulfilled w db with
    | false => rfl
    | true =>
      obtain ⟨st, hst, -⟩ := (createFulfilled_iff_all w db).mp hcf p hp
      rw [hnone] at hst
      cases hst

/-- Witness for C3 at a concrete input: a spec with no dependencies is
trivially fulfilled. -/
theorem create_fulfilled_characterisation_witness :
    createFulfilled ⟨⟨"workload_1", "agent_A"⟩, []⟩ [] = true :=
  (create_fulfilled_characterisation ⟨⟨"workload_1", "agent_A"⟩, []⟩ []).2.1 rfl

/-- C4: `delete_fulfilled(del, store)` returns true iff every dependency either
has no known state or its state fulfils the delete condition per the
DeleteCondition table; an unknown dependency always counts as fulfilled, and a
deleted workload with no dependencies yields true. -/
theorem delete_fulfilled_characterisation (d : DeletedWorkload) (db : ParameterStorage) :
    (deleteFulfilled d db = true ↔
      ∀ p ∈ d.dependencies, lookupName db p.1 = none ∨
        ∃ st, lookupName db p.1 = some st ∧ p.2.fulfilledBy st = true)
    ∧ (d.dependencies = [] → deleteFulfilled d db = true)
    ∧ ((∀ p ∈ d.dependencies, lookupName db p.1 = none) → deleteFulfilled d db = true) := by
  refine ⟨deleteFulfilled_iff_all d db, ?_, ?_⟩
  · intro h
    simp [deleteFulfilled, h]
  · intro h
    exact (deleteFulfilled_iff_all d db).mpr fun p hp => Or.inl (h p hp)

/-- Witness for C4 at a concrete input: a delete dependency naming a workload
unknown to the store counts as fulfilled. -/
theorem delete_fulfilled_characterisation_witness :
    deleteFulfilled ⟨⟨"workload_1", "agent_A"⟩, [("workload_2", .delCondRunning)]⟩ [] = true :=
  (delete_fulfilled_characterisation
    ⟨⟨"workload_1", "agent_A"⟩, [("workload_2", .delCondRunning)]⟩ []).2.2
    (by intro p hp; simp at hp; simp [hp, lookupName])

/-- C1: the four-case table of `enqueue_pending_update`.  When both gates are
fulfilled, `Update(new, old)` is emitted and nothing is queued; when only the
delete gate is fulfilled, `UpdateDeleteOnly(old)` is emitted, `UpdateCreate` is
queued under the new spec's workload name and a WaitingToStart notification is
sent for the new spec; when the delete gate is not fulfilled, nothing is
emitted, `UpdateDelete` is queued under the new spec's workload name and a
WaitingToStop notification for the old workload is sent exactly when
`notify_on_new_entry` holds — which is the case on the batch path (first
enqueue) and not on the re-sweep path. -/
theorem update_four_case_table (newSpec : WorkloadSpec) (old : DeletedWorkload)
    (db : ParameterStorage) (notify : Bool) (q : WorkloadOperationQueue) :
    (createFulfilled newSpec db = true → deleteFulfilled old db = true →
      enqueuePendingUpdate newSpec old db notify q = ⟨[.update newSpec old], q, []⟩)
    ∧ (createFulfilled newSpec db = false → deleteFulfilled old db = true →
      enqueuePendingUpdate newSpec old db notify q =
        ⟨[.updateDeleteOnly old],
          qinsert q newSpec.instanceName.workloadName (.updateCreate newSpec old),
          [reportPendingCreateState newSpec]⟩)
    ∧ (deleteFulfilled old db = false →
      enqueuePendingUpdate newSpec old db notify q =
        ⟨[], qinsert q newSpec.instanceName.workloadName (.updateDelete newSpec old),
          if notify then [reportPendingDeleteState old] else []⟩) := by
  refine ⟨?_, ?_, ?_⟩
  · intro hc hd
    simp [enqueuePendingUpdate, hc, hd]
  · intro hc hd
    simp [enqueuePendingUpdate, hc, hd]
  · intro hd
    simp [enqueuePendingUpdate, hd]

/-- Witness for C1 at a concrete input: with no dependencies both gates open
and the update is emitted immediately with nothing queued. -/
theorem update_four_case_table_witness :
    enqueuePendingUpdate ⟨⟨"workload_1", "agent_A"⟩, []⟩ ⟨⟨"workload_1", "agent_A"⟩, []⟩
      [] true [] =
      ⟨[.update ⟨⟨"workload_1", "agent_A"⟩, []⟩ ⟨⟨"workload_1", "agent_A"⟩, []⟩], [], []⟩ :=
  (update_four_case_table ⟨⟨"workload_1", "agent_A"⟩, []⟩ ⟨⟨"workload_1", "agent_A"⟩, []⟩
    [] true []).1 rfl rfl

/-! Waiting-state notification discipline of the queue re-sweep. -/

/-- Spec-side characterisation (P6/I5): during a re-sweep, the only admissible
waiting-state notification for a drained entry is the WaitingToStart report of
an `UpdateDelete` entry whose delete gate opened while its create gate is still
closed (the transition to `UpdateCreate`). -/
def specTransitionNote (db : ParameterStorage) (e : PendingEntry) :
    Option StateNotification :=
  match e with
  | .updateDelete newSpec old =>
    if deleteFulfilled old db && !createFulfilled newSpec db then
      some (reportPendingCreateState newSpec)
    else none
  | _ => none

theorem processQueueEntry_notes (db : ParameterStorage) (acc : StepResult)
    (e : PendingEntry) :
    (processQueueEntry db acc e).notes = acc.notes ++ (specTransitionNote db e).toList := by
  cases e with
  | create spec =>
    cases hc : createFulfilled spec db <;>
      simp [processQueueEntry, extendWith, enqueuePendingCreate, specTransitionNote, hc]
  | delete old =>
    cases hd : deleteFulfilled old db <;>
      simp [processQueueEntry, extendWith, enqueuePendingDelete, specTransitionNote, hd]
  | updateCreate newSpec old =>
    cases hc : createFulfilled newSpec db <;>
      simp [processQueueEntry, specTransitionNote, hc]
  | updateDelete newSpec old =>
    cases hc : createFulfilled newSpec db <;> cases hd : deleteFulfilled old db <;>
      simp [processQueueEntry, extendWith, enqueuePendingUpdate, specTransitionNote, hc, hd]

theorem foldl_queue_notes (db : ParameterStorage) (es : List PendingEntry)
    (acc : StepResult) :
    (es.foldl (processQueueEntry db) acc).notes =
      acc.notes ++ es.filterMap (specTransitionNote db) := by
  induction es generalizing acc with
  | nil => simp
  | cons e es ih =>
    rw [List.foldl_cons, ih, processQueueEntry_notes, List.filterMap_cons]
    cases h : specTransitionNote db e <;> simp [h]

/-- C5: on a `next` re-sweep, the notifications sent are exactly one
WaitingToStart per `UpdateDelete` entry transitioning to `UpdateCreate`; an
entry re-inserted in the same pending form (and any `Create`, `Delete` or
`UpdateCreate` entry) produces no WaitingToStart or WaitingToStop
notification, so waiting-state notifications are never repeated on re-sweeps
of an unchanged entry. -/
theorem next_notes_only_on_update_delete_transition (db : ParameterStorage)
    (q : WorkloadOperationQueue) :
    (nextWorkloadOperations db q).notes =
      (q.map Prod.snd).filterMap (specTransitionNote db) := by
  rw [nextWorkloadOperations, foldl_queue_notes]
  rfl

/-! `UpdateDeleteOnly` inputs are dropped. -/

/-- Discriminator for the `UpdateDeleteOnly` operation variant. -/
def WorkloadOperation.isUpdateDeleteOnly : WorkloadOperation → Bool
  | .updateDeleteOnly _ => true
  | _ => false

theorem foldl_input_filter (db : ParameterStorage) (ops : List WorkloadOperation)
    (acc : StepResult) :
    ops.foldl (processInputOperation db) acc =
      (ops.filter fun op => ! op.isUpdateDeleteOnly).foldl (processInputOperation db) acc := by
  induction ops generalizing acc with
  | nil => rfl
  | cons op ops ih =>
    cases op with
    | create spec =>
      rw [List.foldl_cons, ih]
      simp [List.filter_cons, WorkloadOperation.isUpdateDeleteOnly]
    | update newSpec old =>
      rw [List.foldl_cons, ih]
      simp [List.filter_cons, WorkloadOperation.isUpdateDeleteOnly]
    | delete old =>
      rw [List.foldl_cons, ih]
      simp [List.filter_cons, WorkloadOperation.isUpdateDeleteOnly]
    | updateDeleteOnly old =>
      rw [List.foldl_cons]
      show (ops.foldl (processInputOperation db) acc) = _
      rw [ih]
      simp [List.filter_cons, WorkloadOperation.isUpdateDeleteOnly]

/-- C9: an `UpdateDeleteOnly` operation in an input batch is dropped: the
scheduler's outputs (ready operations, pending queue and notifications) are
the same as if every `UpdateDeleteOnly` input had been filtered out of the
batch, so no queue entry, emission or notification is ever produced for it.
(The pending-queue type `PendingEntry`, mirroring scheduler.rs lines 32-38,
has no `UpdateDeleteOnly` variant at all, so such a value can never be stored
in the queue.) -/
theorem update_delete_only_inputs_dropped (ops : List WorkloadOperation)
    (db : ParameterStorage) (q : WorkloadOperationQueue) :
    enqueueFilteredWorkloadOperations ops db q =
      enqueueFilteredWorkloadOperations
        (ops.filter fun op => ! op.isUpdateDeleteOnly) db q := by
  rw [enqueueFilteredWorkloadOperations, enqueueFilteredWorkloadOperations,
    foldl_input_filter]

/-! Idempotence of an empty batch. -/

/-- The condition under which a pending entry stays in the queue on a sweep:
its gating predicate (the one the corresponding `next_workload_operations`
branch tests) is unfulfilled. -/
def entryBlocked (db : ParameterStorage) : PendingEntry → Bool
  | .create spec => ! createFulfilled spec db
  | .delete old => ! deleteFulfilled old db
  | .updateCreate newSpec _ => ! createFulfilled newSpec db
  | .updateDelete _ old => ! deleteFulfilled old db

/-- The workload name the scheduler uses as a queue key for a pending entry. -/
def entryName : PendingEntry → String
  | .create spec => spec.instanceName.workloadName
  | .delete old => old.instanceName.workloadName
  | .updateCreate newSpec _ => newSpec.instanceName.workloadName
  | .updateDelete newSpec _ => newSpec.instanceName.workloadName

theorem qinsert_of_not_mem (q : WorkloadOperationQueue) (k : String)
    (v : PendingEntry) (h : k ∉ q.map Prod.fst) : qinsert q k v = q ++ [(k, v)] := by
  rw [qinsert, if_neg]
  simp only [List.any_eq_true, decide_eq_true_eq]
  rintro ⟨p, hp, rfl⟩
  exact h (List.mem_map.mpr ⟨p, hp, rfl⟩)

theorem processQueueEntry_blocked (db : ParameterStorage) (acc : StepResult)
    (e : PendingEntry) (hb : entryBlocked db e = true) :
    processQueueEntry db acc e =
      ⟨acc.ready, qinsert acc.queue (entryName e) e, acc.notes⟩ := by
  cases e with
  | create spec =>
    simp only [entryBlocked, Bool.not_eq_true'] at hb
    simp [processQueueEntry, extendWith, enqueuePendingCreate, entryName, hb]
  | delete old =>
    simp only [entryBlocked, Bool.not_eq_true'] at hb
    simp [processQueueEntry, extendWith, enqueuePendingDelete, entryName, hb]
  | updateCreate newSpec old =>
    simp only [entryBlocked, Bool.not_eq_true'] at hb
    simp [processQueueEntry, entryName, hb]
  | updateDelete newSpec old =>
    simp only [entryBlocked, Bool.not_eq_true'] at hb
    simp [processQueueEntry, extendWith, enqueuePendingUpdate, entryName, hb]

theorem foldl_blocked_queue (db : ParameterStorage)
    (es : List (String × PendingEntry)) :
    ∀ (r0 : List WorkloadOperation) (qacc : WorkloadOperationQueue)
      (n0 : List StateNotification),
      (∀ p ∈ es, entryBlocked db p.2 = true) →
      (∀ p ∈ es, p.1 = entryName p.2) →
      (∀ p ∈ es, p.1 ∉ qacc.map Prod.fst) →
      (es.map Prod.fst).Nodup →
      (es.map Prod.snd).foldl (processQueueEntry db) ⟨r0, qacc, n0⟩ =
        ⟨r0, qacc ++ es, n0⟩ := by
  induction es with
  | nil => intro r0 qacc n0 _ _ _ _; simp
  | cons p es ih =>
    intro r0 qacc n0 hb hk hdisj hnd
    have hb0 : entryBlocked db p.2 = true := hb p (List.mem_cons_self p es)
    have hk0 : p.1 = entryName p.2 := hk p (List.mem_cons_self p es)
    rw [List.map_cons, List.foldl_cons, processQueueEntry_blocked db _ _ hb0]
    have hq : qinsert qacc (entryName p.2) p.2 = qacc ++ [(p.1, p.2)] := by
      rw [← hk0]
      exact qinsert_of_not_mem qacc p.1 p.2 (hdisj p (List.mem_cons_self p es))
    rw [hq]
    have hnd' := hnd
    rw [List.map_cons, List.nodup_cons] at hnd'
    rw [ih r0 (qacc ++ [(p.1, p.2)]) n0
      (fun x hx => hb x (List.mem_cons_of_mem p hx))
      (fun x hx => hk x (List.mem_cons_of_mem p hx))
      (fun x hx => by
        simp only [List.map_append, List.mem_append, List.map_cons, List.map_nil]
        rintro (h | h)
        · exact hdisj x (List.mem_cons_of_mem p hx) h
        · simp only [List.mem_singleton] at h
          exact hnd'.1 (h ▸ List.mem_map.mpr ⟨x, hx, rfl⟩))
      hnd'.2]
    simp

/-- C8 counterexample: the claim fails on a queue holding a `Create` entry
whose dependency has meanwhile reached its required state.  With queue
`{workload_1 → Create}` (dependency workload_2 must be Running) and store
`{workload_2 → Running}`, the call `enqueue_filtered([])` emits
`Create(workload_1)` and empties the queue, so the outputs are not empty and
the queue is not left as it was. -/
theorem empty_batch_not_idempotent_on_unstable_queue :
    ¬((enqueueFilteredWorkloadOperations []
          [("workload_2", .running)]
          [("workload_1",
            .create ⟨⟨"workload_1", "agent_A"⟩, [("workload_2", .addCondRunning)]⟩)]).ready = []
      ∧ (enqueueFilteredWorkloadOperations []
          [("workload_2", .running)]
          [("workload_1",
            .create ⟨⟨"workload_1", "agent_A"⟩, [("workload_2", .addCondRunning)]⟩)]).queue =
        [("workload_1",
          .create ⟨⟨"workload_1", "agent_A"⟩, [("workload_2", .addCondRunning)]⟩)]) := by
  decide

/-- C8 (amended): if every entry of the pending queue is still blocked under
the store — which holds for any queue produced by a sweep with that same
store — and the queue is a well-formed map (keys are the entries' workload
names, no duplicate keys), then `enqueue_filtered([])` followed by `next`
emits no operations, sends no notifications, and leaves the queue exactly as
it was. -/
theorem empty_batch_idempotent_on_blocked_queue (db : ParameterStorage)
    (q : WorkloadOperationQueue)
    (hb : ∀ p ∈ q, entryBlocked db p.2 = true)
    (hk : ∀ p ∈ q, p.1 = entryName p.2)
    (hnd : (q.map Prod.fst).Nodup) :
    enqueueFilteredWorkloadOperations [] db q = ⟨[], q, []⟩
      ∧ nextWorkloadOperations db q = ⟨[], q, []⟩ := by
  have hnext : nextWorkloadOperations db q = ⟨[], q, []⟩ := by
    rw [nextWorkloadOperations,
      foldl_blocked_queue db q [] [] [] hb hk (by simp) hnd]
    simp
  refine ⟨?_, hnext⟩
  rw [enqueueFilteredWorkloadOperations]
  simp only [List.foldl_nil]
  rw [hnext]
  rfl

/-- Witness for the amended C8 at a concrete input: a queue holding one
blocked `Create` entry under an empty store is left untouched. -/
theorem empty_batch_idempotent_on_blocked_queue_witness :
    enqueueFilteredWorkloadOperations [] []
        [("workload_1",
          .create ⟨⟨"workload_1", "agent_A"⟩, [("workload_2", .addCondRunning)]⟩)] =
      ⟨[], [("workload_1",
        .create ⟨⟨"workload_1", "agent_A"⟩, [("workload_2", .addCondRunning)]⟩)], []⟩ :=
  (empty_batch_idempotent_on_blocked_queue []
    [("workload_1",
      .create ⟨⟨"workload_1", "agent_A"⟩, [("workload_2", .addCondRunning)]⟩)]
    (by decide) (by decide) (by decide)).1

/-! Accounting: no pending entry is silently discarded by a sweep. -/

/-- The workload name an emitted operation is about. -/
def opWorkloadName : WorkloadOperation → String
  | .create spec => spec.instanceName.workloadName
  | .update newSpec _ => newSpec.instanceName.workloadName
  | .updateDeleteOnly old => old.instanceName.workloadName
  | .delete old => old.instanceName.workloadName

theorem mem_qinsert_self (q : WorkloadOperationQueue) (k : String) (v : PendingEntry) :
    (k, v) ∈ qinsert q k v := by
  rw [qinsert]
  split
  · next h =>
    simp only [List.any_eq_true, decide_eq_true_eq] at h
    obtain ⟨p, hp, hpk⟩ := h
    exact List.mem_map.mpr ⟨p, hp, by simp [hpk]⟩
  · exact List.mem_append_right _ (List.mem_singleton.mpr rfl)

theorem mem_qinsert_of_mem (q : WorkloadOperationQueue) (k0 : String)
    (v0 : PendingEntry) (k : String) (v : PendingEntry) (h : (k, v) ∈ q) :
    ∃ v2, (k, v2) ∈ qinsert q k0 v0 := by
  rw [qinsert]
  split
  · by_cases hk : k = k0
    · subst hk
      exact ⟨v0, List.mem_map.mpr ⟨(k, v), h, by simp⟩⟩
    · exact ⟨v, List.mem_map.mpr ⟨(k, v), h, by simp [hk]⟩⟩
  · exact ⟨v, List.mem_append_left _ h⟩

theorem processQueueEntry_ready_shape (db : ParameterStorage) (acc : StepResult)
    (e : PendingEntry) :
    ∃ l, (processQueueEntry db acc e).ready = acc.ready ++ l := by
  cases e with
  | create spec =>
    cases hc : createFulfilled spec db
    · exact ⟨[], by simp [processQueueEntry, extendWith, enqueuePendingCreate, hc]⟩
    · exact ⟨[.create spec], by simp [processQueueEntry, extendWith, enqueuePendingCreate, hc]⟩
  | delete old =>
    cases hd : deleteFulfilled old db
    · exact ⟨[], by simp [processQueueEntry, extendWith, enqueuePendingDelete, hd]⟩
    · exact ⟨[.delete old], by simp [processQueueEntry, extendWith, enqueuePendingDelete, hd]⟩
  | updateCreate newSpec old =>
    cases hc : createFulfilled newSpec db
    · exact ⟨[], by simp [processQueueEntry, hc]⟩
    · exact ⟨[.update newSpec old], by simp [processQueueEntry, hc]⟩
  | updateDelete newSpec old =>
    cases hc : createFulfilled newSpec db <;> cases hd : deleteFulfilled old db
    · exact ⟨[], by simp [processQueueEntry, extendWith, enqueuePendingUpdate, hc, hd]⟩
    · exact ⟨[.updateDeleteOnly old],
        by simp [processQueueEntry, extendWith, enqueuePendingUpdate, hc, hd]⟩
    · exact ⟨[], by simp [processQueueEntry, extendWith, enqueuePendingUpdate, hc, hd]⟩
    · exact ⟨[.update newSpec old],
        by simp [processQueueEntry, extendWith, enqueuePendingUpdate, hc, hd]⟩

theorem processQueueEntry_queue_shape (db : ParameterStorage) (acc : StepResult)
    (e : PendingEntry) :
    (processQueueEntry db acc e).queue = acc.queue ∨
      ∃ k0 v0, (processQueueEntry db acc e).queue = qinsert acc.queue k0 v0 := by
  cases e with
  | create spec =>
    cases hc : createFulfilled spec db
    · exact Or.inr ⟨spec.instanceName.workloadName, .create spec,
        by simp [processQueueEntry, extendWith, enqueuePendingCreate, hc]⟩
    · exact Or.inl (by simp [processQueueEntry, extendWith, enqueuePendingCreate, hc])
  | delete old =>
    cases hd : deleteFulfilled old db
    · exact Or.inr ⟨old.instanceName.workloadName, .delete old,
        by simp [processQueueEntry, extendWith, enqueuePendingDelete, hd]⟩
    · exact Or.inl (by simp [processQueueEntry, extendWith, enqueuePendingDelete, hd])
  | updateCreate newSpec old =>
    cases hc : createFulfilled newSpec db
    · exact Or.inr ⟨newSpec.instanceName.workloadName, .updateCreate newSpec old,
        by simp [processQueueEntry, hc]⟩
    · exact Or.inl (by simp [processQueueEntry, hc])
  | updateDelete newSpec old =>
    cases hc : createFulfilled newSpec db <;> cases hd : deleteFulfilled old db
    · exact Or.inr ⟨newSpec.instanceName.workloadName, .updateDelete newSpec old,
        by simp [processQueueEntry, extendWith, enqueuePendingUpdate, hc, hd]⟩
    · exact Or.inr ⟨newSpec.instanceName.workloadName, .updateCreate newSpec old,
        by simp [processQueueEntry, extendWith, enqueuePendingUpdate, hc, hd]⟩
    · exact Or.inr ⟨newSpec.instanceName.workloadName, .updateDelete newSpec old,
        by simp [processQueueEntry, extendWith, enqueuePendingUpdate, hc, hd]⟩
    · exact Or.inl (by simp [processQueueEntry, extendWith, enqueuePendingUpdate, hc, hd])

theorem processQueueEntry_ready_mono (db : ParameterStorage) (acc : StepResult)
    (e : PendingEntry) (op : WorkloadOperation) (h : op ∈ acc.ready) :
    op ∈ (processQueueEntry db acc e).ready := by
  obtain ⟨l, hl⟩ := processQueueEntry_ready_shape db acc e
  rw [hl]
  exact List.mem_append_left _ h

theorem processQueueEntry_key_mono (db : ParameterStorage) (acc : StepResult)
    (e : PendingEntry) (k : String) (h : ∃ v, (k, v) ∈ acc.queue) :
    ∃ v, (k, v) ∈ (processQueueEntry db acc e).queue := by
  obtain ⟨v, hv⟩ := h
  rcases processQueueEntry_queue_shape db acc e with hq | ⟨k0, v0, hq⟩
  · exact ⟨v, hq ▸ hv⟩
  · rw [hq]
    exact mem_qinsert_of_mem acc.queue k0 v0 k v hv

theorem foldl_ready_mono (db : ParameterStorage) (es : List PendingEntry)
    (acc : StepResult) (op : WorkloadOperation) (h : op ∈ acc.ready) :
    op ∈ (es.foldl (processQueueEntry db) acc).ready := by
  induction es generalizing acc with
  | nil => exact h
  | cons e es ih => exact ih _ (processQueueEntry_ready_mono db acc e op h)

theorem foldl_key_mono (db : ParameterStorage) (es : List PendingEntry)
    (acc : StepResult) (k : String) (h : ∃ v, (k, v) ∈ acc.queue) :
    ∃ v, (k, v) ∈ (es.foldl (processQueueEntry db) acc).queue := by
  induction es generalizing acc with
  | nil => exact h
  | cons e es ih => exact ih _ (processQueueEntry_key_mono db acc e k h)

theorem processQueueEntry_accounts (db : ParameterStorage) (acc : StepResult)
    (e : PendingEntry) :
    (∃ op ∈ (processQueueEntry db acc e).ready, opWorkloadName op = entryName e)
      ∨ ∃ v, (entryName e, v) ∈ (processQueueEntry db acc e).queue := by
  by_cases hb : entryBlocked db e = true
  · right
    rw [processQueueEntry_blocked db acc e hb]
    exact ⟨e, mem_qinsert_self acc.queue (entryName e) e⟩
  · rw [Bool.not_eq_true] at hb
    cases e with
    | create spec =>
      simp only [entryBlocked, Bool.not_eq_false'] at hb
      exact Or.inl ⟨.create spec,
        by simp [processQueueEntry, extendWith, enqueuePendingCreate, hb], rfl⟩
    | delete old =>
      simp only [entryBlocked, Bool.not_eq_false'] at hb
      exact Or.inl ⟨.delete old,
        by simp [processQueueEntry, extendWith, enqueuePendingDelete, hb], rfl⟩
    | updateCreate newSpec old =>
      simp only [entryBlocked, Bool.not_eq_false'] at hb
      exact Or.inl ⟨.update newSpec old, by simp [processQueueEntry, hb], rfl⟩
    | updateDelete newSpec old =>
      simp only [entryBlocked, Bool.not_eq_false'] at hb
      cases hc : createFulfilled newSpec db
      · right
        refine ⟨.updateCreate newSpec old, ?_⟩
        have hq : (processQueueEntry db acc (.updateDelete newSpec old)).queue =
            qinsert acc.queue newSpec.instanceName.workloadName
              (.updateCreate newSpec old) := by
          simp [processQueueEntry, extendWith, enqueuePendingUpdate, hb, hc]
        rw [hq]
        exact mem_qinsert_self _ _ _
      · exact Or.inl ⟨.update newSpec old,
          by simp [processQueueEntry, extendWith, enqueuePendingUpdate, hb, hc], rfl⟩

theorem processQueueEntry_update_delete_split (db : ParameterStorage)
    (acc : StepResult) (newSpec : WorkloadSpec) (old : DeletedWorkload)
    (hname : old.instanceName.workloadName = newSpec.instanceName.workloadName)
    (hd : deleteFulfilled old db = true) (hc : createFulfilled newSpec db = false) :
    (∃ op ∈ (processQueueEntry db acc (.updateDelete newSpec old)).ready,
        opWorkloadName op = entryName (.updateDelete newSpec old))
      ∧ ∃ v, (entryName (.updateDelete newSpec old), v) ∈
          (processQueueEntry db acc (.updateDelete newSpec old)).queue := by
  constructor
  · exact ⟨.updateDeleteOnly old,
      by simp [processQueueEntry, extendWith, enqueuePendingUpdate, hc, hd],
      by simp [opWorkloadName, entryName, hname]⟩
  · refine ⟨.updateCreate newSpec old, ?_⟩
    have hq : (processQueueEntry db acc (.updateDelete newSpec old)).queue =
        qinsert acc.queue newSpec.instanceName.workloadName
          (.updateCreate newSpec old) := by
      simp [processQueueEntry, extendWith, enqueuePendingUpdate, hc, hd]
    rw [hq]
    exact mem_qinsert_self _ _ _

theorem foldl_accounts (db : ParameterStorage) (es : List (String × PendingEntry)) :
    ∀ (acc : StepResult), (∀ p ∈ es, p.1 = entryName p.2) →
      ∀ p ∈ es,
        (∃ op ∈ ((es.map Prod.snd).foldl (processQueueEntry db) acc).ready,
            opWorkloadName op = p.1)
          ∨ ∃ v, (p.1, v) ∈ ((es.map Prod.snd).foldl (processQueueEntry db) acc).queue := by
  induction es with
  | nil => intro acc _ p hp; cases hp
  | cons p0 es ih =>
    intro acc hk p hp
    rw [List.map_cons, List.foldl_cons]
    rcases List.mem_cons.mp hp with rfl | hp'
    · have hk0 : p.1 = entryName p.2 := hk p (List.mem_cons_self p es)
      rcases processQueueEntry_accounts db acc p.2 with ⟨op, hop, hname⟩ | ⟨v, hv⟩
      · exact Or.inl ⟨op, foldl_ready_mono db _ _ op hop, by rw [hname, hk0]⟩
      · exact Or.inr (foldl_key_mono db _ _ p.1 ⟨v, hk0 ▸ hv⟩)
    · exact ih (processQueueEntry db acc p0.2)
        (fun x hx => hk x (List.mem_cons_of_mem p0 hx)) p hp'

theorem foldl_accounts_split (db : ParameterStorage)
    (es : List (String × PendingEntry)) :
    ∀ (acc : StepResult), (∀ p ∈ es, p.1 = entryName p.2) →
      ∀ p ∈ es, ∀ (newSpec : WorkloadSpec) (old : DeletedWorkload),
        p.2 = PendingEntry.updateDelete newSpec old →
        old.instanceName.workloadName = newSpec.instanceName.workloadName →
        deleteFulfilled old db = true → createFulfilled newSpec db = false →
        (∃ op ∈ ((es.map Prod.snd).foldl (processQueueEntry db) acc).ready,
            opWorkloadName op = p.1)
          ∧ ∃ v, (p.1, v) ∈ ((es.map Prod.snd).foldl (processQueueEntry db) acc).queue := by
  induction es with
  | nil => intro acc _ p hp; cases hp
  | cons p0 es ih =>
    intro acc hk p hp newSpec old he hname hd hc
    rw [List.map_cons, List.foldl_cons]
    rcases List.mem_cons.mp hp with rfl | hp'
    · have hk0 : p.1 = entryName p.2 := hk p (List.mem_cons_self p es)
      rw [he] at hk0
      rw [he]
      obtain ⟨⟨op, hop, hopname⟩, v, hv⟩ :=
        processQueueEntry_update_delete_split db acc newSpec old hname hd hc
      exact ⟨⟨op, foldl_ready_mono db _ _ op hop, by rw [hopname, hk0]⟩,
        foldl_key_mono db _ _ p.1 ⟨v, hk0 ▸ hv⟩⟩
    · exact ih (processQueueEntry db acc p0.2)
        (fun x hx => hk x (List.mem_cons_of_mem p0 hx)) p hp' newSpec old he hname hd hc

/-- C10: on a sweep, every workload name in the queue beforehand is accounted
for: its drained entry either contributes at least one ready operation carrying
that workload name, or is re-inserted under the same name; and in the
UpdateDelete-to-UpdateCreate case (delete gate open, create gate closed, old
and new incarnations sharing the workload name) both happen.  No pending entry
is discarded without being emitted or re-queued. -/
theorem next_accounts_for_every_queued_name (db : ParameterStorage)
    (q : WorkloadOperationQueue) (hk : ∀ p ∈ q, p.1 = entryName p.2) :
    (∀ p ∈ q,
      (∃ op ∈ (nextWorkloadOperations db q).ready, opWorkloadName op = p.1)
        ∨ ∃ v, (p.1, v) ∈ (nextWorkloadOperations db q).queue)
    ∧ (∀ p ∈ q, ∀ (newSpec : WorkloadSpec) (old : DeletedWorkload),
        p.2 = PendingEntry.updateDelete newSpec old →
        old.instanceName.workloadName = newSpec.instanceName.workloadName →
        deleteFulfilled old db = true → createFulfilled newSpec db = false →
        (∃ op ∈ (nextWorkloadOperations db q).ready, opWorkloadName op = p.1)
          ∧ ∃ v, (p.1, v) ∈ (nextWorkloadOperations db q).queue) :=
  ⟨fun p hp => foldl_accounts db q ⟨[], [], []⟩ hk p hp,
   fun p hp newSpec old he hname hd hc =>
     foldl_accounts_split db q ⟨[], [], []⟩ hk p hp newSpec old he hname hd hc⟩

/-- Witness for C10 at a concrete input: a queue holding one blocked `Create`
entry re-appears in the sweep's result queue under its workload name. -/
theorem next_accounts_for_every_queued_name_witness :
    (∃ op ∈ (nextWorkloadOperations []
        [("workload_1",
          .create ⟨⟨"workload_1", "agent_A"⟩, [("workload_2", .addCondRunning)]⟩)]).ready,
        opWorkloadName op = "workload_1")
      ∨ ∃ v, ("workload_1", v) ∈ (nextWorkloadOperations []
        [("workload_1",
          .create ⟨⟨"workload_1", "agent_A"⟩, [("workload_2", .addCondRunning)]⟩)]).queue :=
  (next_accounts_for_every_queued_name []
    [("workload_1",
      .create ⟨⟨"workload_1", "agent_A"⟩, [("workload_2", .addCondRunning)]⟩)]
    (by decide)).1
    ("workload_1",
      .create ⟨⟨"workload_1", "agent_A"⟩, [("workload_2", .addCondRunning)]⟩)
    (List.mem_singleton.mpr rfl)

/-! The server-side cycle checker (`server_state.rs`, module `cyclic_check`).

The Rust code sorts workload and dependency names with `Vec::sort` on
`String`, i.e. lexicographically.  Lean's built-in `String` order is not
kernel-reducible, so the embedding carries its own executable lexicographic
comparison on the underlying character lists (code-point order; workload names
are ASCII, where this agrees with Rust's byte-wise order). -/

def strLtb : List Char → List Char → Bool
  | [], [] => false
  | [], _ :: _ => true
  | _ :: _, [] => false
  | a :: as, b :: bs =>
    if a.toNat < b.toNat then true
    else if b.toNat < a.toNat then false
    else strLtb as bs

theorem strLtb_irrefl : ∀ l, strLtb l l = false
  | [] => rfl
  | a :: as => by simp [strLtb, strLtb_irrefl as]

theorem strLtb_trans : ∀ (as bs cs : List Char),
    strLtb as bs = true → strLtb bs cs = true → strLtb as cs = true := by
  intro as
  induction as with
  | nil =>
    intro bs cs h1 h2
    cases bs with
    | nil => cases h1
    | cons b bs =>
      cases cs with
      | nil => cases h2
      | cons c cs => rfl
  | cons a as ih =>
    intro bs cs h1 h2
    cases bs with
    | nil => cases h1
    | cons b bs =>
      cases cs with
      | nil => cases h2
      | cons c cs =>
        simp only [strLtb] at h1 h2 ⊢
        by_cases hab : a.toNat < b.toNat
        · by_cases hbc : b.toNat < c.toNat
          · simp [Nat.lt_trans hab hbc]
          · simp only [hbc, if_false] at h2
            by_cases hcb : c.toNat < b.toNat
            · simp [hcb] at h2
            · have hac : a.toNat < c.toNat := by omega
              simp [hac]
        · simp only [hab, if_false] at h1
          by_cases hba : b.toNat < a.toNat
          · simp [hba] at h1
          · simp only [hba, if_false] at h1
            by_cases hbc : b.toNat < c.toNat
            · have hac : a.toNat < c.toNat := by omega
              simp [hac]
            · simp only [hbc, if_false] at h2
              by_cases hcb : c.toNat < b.toNat
              · simp [hcb] at h2
              · simp only [hcb, if_false] at h2
                have hac : ¬ a.toNat < c.toNat := by omega
                have hca : ¬ c.toNat < a.toNat := by omega
                simp only [hac, hca, if_false]
                exact ih bs cs h1 h2

theorem char_eq_of_toNat_eq {a b : Char} (h : a.toNat = b.toNat) : a = b :=
  Char.eq_of_val_eq (UInt32.ext h)

theorem strLtb_trichotomy : ∀ (as bs : List Char),
    strLtb as bs = true ∨ as = bs ∨ strLtb bs as = true := by
  intro as
  induction as with
  | nil =>
    intro bs
    cases bs with
    | nil => exact Or.inr (Or.inl rfl)
    | cons b bs => exact Or.inl rfl
  | cons a as ih =>
    intro bs
    cases bs with
    | nil => exact Or.inr (Or.inr rfl)
    | cons b bs =>
      by_cases hab : a.toNat < b.toNat
      · exact Or.inl (by simp [strLtb, hab])
      · by_cases hba : b.toNat < a.toNat
        · exact Or.inr (Or.inr (by simp [strLtb, hba]))
        · have haeq : a = b := char_eq_of_toNat_eq (by omega)
          rcases ih bs with h | h | h
          · exact Or.inl (by simp [strLtb, hab, hba, h])
          · exact Or.inr (Or.inl (by rw [haeq, h]))
          · exact Or.inr (Or.inr (by simp [strLtb, hab, hba, h]))

theorem strLtb_asymm (as bs : List Char) (h : strLtb as bs = true) :
    strLtb bs as = false := by
  by_contra hc
  rw [Bool.not_eq_false] at hc
  have := strLtb_trans as bs as h hc
  rw [strLtb_irrefl] at this
  cases this

theorem strLtb_eq_of_ff (as bs : List Char) (h1 : strLtb as bs = false)
    (h2 : strLtb bs as = false) : as = bs := by
  rcases strLtb_trichotomy as bs with h | h | h
  · rw [h] at h1; cases h1
  · exact h
  · rw [h] at h2; cases h2

/-- The (total) lexicographic order the embedding sorts workload names by;
`a` comes no later than `b` iff `b` is not strictly smaller. -/
def nameLe (a b : String) : Prop := strLtb b.data a.data = false

instance : DecidableRel nameLe := fun a b =>
  inferInstanceAs (Decidable (strLtb b.data a.data = false))

instance : IsTrans String nameLe where
  trans a b c hab hbc := by
    unfold nameLe at *
    by_contra hc
    rw [Bool.not_eq_false] at hc
    rcases strLtb_trichotomy b.data c.data with h | h | h
    · have hba := strLtb_trans b.data c.data a.data h hc
      rw [hba] at hab
      cases hab
    · rw [← h] at hc
      rw [hc] at hab
      cases hab
    · rw [h] at hbc
      cases hbc

instance : IsAntisymm String nameLe where
  antisymm a b hab hba := by
    unfold nameLe at *
    have hd : a.data = b.data := strLtb_eq_of_ff a.data b.data hba hab
    cases a
    cases b
    exact congrArg String.mk hd

instance : IsTotal String nameLe where
  total a b := by
    unfold nameLe
    by_cases h : strLtb b.data a.data = true
    · exact Or.inr (strLtb_asymm _ _ h)
    · exact Or.inl (Bool.eq_false_iff.mpr h)

/-- `Vec::sort` on names: a deterministic lexicographic sort. -/
def sortNames (l : List String) : List String := List.insertionSort nameLe l

theorem sortNames_eq_of_perm (l1 l2 : List String) (h : l1.Perm l2) :
    sortNames l1 = sortNames l2 :=
  List.eq_of_perm_of_sorted
    ((List.perm_insertionSort nameLe l1).trans
      (h.trans (List.perm_insertionSort nameLe l2).symm))
    (List.sorted_insertionSort nameLe l1) (List.sorted_insertionSort nameLe l2)

/-- `CyclicCheckResult` (server_state.rs, lines 28-32). -/
inductive CyclicCheckResult where
  | workloadPartOfCycle (workload : String)
  | invalidStructure (msg : String)
deriving DecidableEq

/-- The message built at server_state.rs lines 70-74 for a name missing from
the state. -/
def missingWorkloadMsg (n : String) : String :=
  "workload \x27" ++ n ++ "\x27 is not part of the state."

/-- The dependency names of a workload spec (`dependencies.keys()`). -/
def depNames (w : WorkloadSpec) : List String := w.dependencies.map Prod.fst

/-- server_state.rs lines 86-88: collect and sort the dependency names. -/
def sortedDeps (w : WorkloadSpec) : List String := sortNames (depNames w)

/-- server_state.rs lines 56-59: collect and sort the workload names. -/
def sortedKeys (wls : List (String × WorkloadSpec)) : List String :=
  sortNames (wls.map Prod.fst)

/-- The dependency loop of `dfs` (server_state.rs, lines 90-99): walk the
sorted dependencies of the current head, pushing unvisited ones onto the
stack front; a visited dependency still on the path is a cycle participant
and aborts the scan. -/
def scanDeps (visited path : List String) :
    List String → List String → Option String × List String
  | [], stack => (none, stack)
  | d :: ds, stack =>
    if d ∉ visited then scanDeps visited path ds (d :: stack)
    else if d ∈ path then (some d, stack)
    else scanDeps visited path ds stack

/-- The `while let Some(head) = stack.front()` loop of `dfs` (server_state.rs,
lines 69-100), fuelled; `none` means the fuel ran out.  An unvisited head is
marked visited and appended to the path; a visited head is popped from the
stack and the path's back is popped; either way the head's sorted
dependencies are scanned. -/
def dfsInner (wls : List (String × WorkloadSpec)) :
    Nat → List String → List String → List String →
    Option (Except CyclicCheckResult (List String))
  | 0, _, _, _ => none
  | _ + 1, [], visited, _ => some (.ok visited)
  | fuel + 1, head :: rest, visited, path =>
    match lookupName wls head with
    | none => some (.error (.invalidStructure (missingWorkloadMsg head)))
    | some spec =>
      if head ∈ visited then
        match scanDeps visited path.dropLast (sortedDeps spec) rest with
        | (some d, _) => some (.error (.workloadPartOfCycle d))
        | (none, stack1) => dfsInner wls fuel stack1 visited path.dropLast
      else
        match scanDeps (head :: visited) (path ++ [head]) (sortedDeps spec)
            (head :: rest) with
        | (some d, _) => some (.error (.workloadPartOfCycle d))
        | (none, stack1) => dfsInner wls fuel stack1 (head :: visited) (path ++ [head])

/-- The outer loop of `dfs` (server_state.rs, lines 62-101): start an inner
search from every not-yet-visited workload name in sorted order. -/
def dfsOuter (wls : List (String × WorkloadSpec)) (fuel : Nat) :
    List String → List String → Option (Except CyclicCheckResult Unit)
  | [], _ => some (.ok ())
  | w :: ws, visited =>
    if w ∈ visited then dfsOuter wls fuel ws visited
    else
      match dfsInner wls fuel [w] visited [] with
      | none => none
      | some (.error e) => some (.error e)
      | some (.ok visited1) => dfsOuter wls fuel ws visited1

/-- `cyclic_check::dfs` (server_state.rs, lines 45-103), fuelled. -/
def dfs (fuel : Nat) (wls : List (String × WorkloadSpec)) :
    Option (Except CyclicCheckResult Unit) :=
  dfsOuter wls fuel (sortedKeys wls) []

deriving instance DecidableEq for Except

/-- Whether the dependency graph of a state has an edge from `u` to `v`. -/
def hasEdge (wls : List (String × WorkloadSpec)) (u v : String) : Bool :=
  match lookupName wls u with
  | none => false
  | some spec => (depNames spec).any fun d => d = v

/-- A state on which the checker misses a cycle: `a → {b, c, d}`, `b → a`,
`d → c`; the cycle is `a → b → a`. -/
def cycleEscapeState : List (String × WorkloadSpec) :=
  [("a", ⟨⟨"a", "agent_A"⟩,
      [("b", .addCondRunning), ("c", .addCondRunning), ("d", .addCondRunning)]⟩),
   ("b", ⟨⟨"b", "agent_A"⟩, [("a", .addCondRunning)]⟩),
   ("c", ⟨⟨"c", "agent_A"⟩, []⟩),
   ("d", ⟨⟨"d", "agent_A"⟩, [("c", .addCondRunning)]⟩)]

/-- C2 (bug witness): the state `cycleEscapeState` has every dependency name
among its keys and contains the cycle `a → b → a` (both edges shown), yet the
checker returns `Ok`: the duplicate stack entry for `c` triggers an extra
`path.pop_back()` that removes the still-open ancestor `a` from the path
before the back edge `b → a` is examined.  This contradicts claim C2 (and
spec properties P8/I3): a cyclic state must be rejected with
`WorkloadPartOfCycle`. -/
theorem cyclic_check_misses_cycle :
    hasEdge cycleEscapeState "a" "b" = true
    ∧ hasEdge cycleEscapeState "b" "a" = true
    ∧ (∀ p ∈ cycleEscapeState, ∀ d ∈ depNames p.2,
        lookupName cycleEscapeState d ≠ none)
    ∧ dfs 100 cycleEscapeState = some (.ok ()) := by
  refine ⟨by decide, by decide, by decide, by decide⟩

/-- A state with both a self-cycle at `A` and a dangling dependency `B → C`. -/
def danglingCycleState : List (String × WorkloadSpec) :=
  [("A", ⟨⟨"A", "agent_A"⟩, [("A", .addCondRunning)]⟩),
   ("B", ⟨⟨"B", "agent_A"⟩, [("C", .addCondRunning)]⟩)]

/-- C6 counterexample: `danglingCycleState` has the dangling dependency name
`C` (named by `B`, not a key of the state), yet the checker returns
`WorkloadPartOfCycle("A")` — the self-cycle at `A` is found first — and not
`InvalidStructure` for any message, refuting the claim that every state with
a dangling dependency yields `InvalidStructure`. -/
theorem dangling_with_cycle_reports_cycle :
    (∃ p ∈ danglingCycleState, "C" ∈ depNames p.2)
    ∧ lookupName danglingCycleState "C" = none
    ∧ dfs 100 danglingCycleState = some (.error (.workloadPartOfCycle "A"))
    ∧ ∀ msg, dfs 100 danglingCycleState ≠ some (.error (.invalidStructure msg)) := by
  refine ⟨by decide, by decide, by decide, ?_⟩
  intro msg h
  have hv : dfs 100 danglingCycleState =
      some (.error (.workloadPartOfCycle "A")) := by decide
  rw [hv] at h
  simp at h

/-- The state of scenario S7: `A → B`, `B → C`, with no workload `C`. -/
def danglingChainState : List (String × WorkloadSpec) :=
  [("A", ⟨⟨"A", "agent_A"⟩, [("B", .addCondRunning)]⟩),
   ("B", ⟨⟨"B", "agent_A"⟩, [("C", .addCondRunning)]⟩)]

/-! Lookup lemmas. -/

theorem lookupName_eq_none_iff {α : Type} (l : List (String × α)) (n : String) :
    lookupName l n = none ↔ n ∉ l.map Prod.fst := by
  induction l with
  | nil => simp [lookupName]
  | cons p rest ih =>
    rw [lookupName]
    by_cases h : p.1 = n
    · simp [h]
    · rw [if_neg h, ih, List.map_cons]
      simp only [List.mem_cons]
      constructor
      · rintro hn (hc | hc)
        · exact h hc.symm
        · exact hn hc
      · intro hn hc
        exact hn (Or.inr hc)

theorem lookupName_mem {α : Type} (l : List (String × α)) (n : String) (v : α)
    (h : lookupName l n = some v) : (n, v) ∈ l := by
  induction l with
  | nil => cases h
  | cons p rest ih =>
    rw [lookupName] at h
    by_cases hp : p.1 = n
    · rw [if_pos hp] at h
      cases p with
      | mk k v0 =>
        cases hp
        cases h
        exact List.mem_cons_self _ _
    · rw [if_neg hp] at h
      exact List.mem_cons_of_mem p (ih h)

theorem lookupName_of_mem_nodup {α : Type} (l : List (String × α))
    (hnd : (l.map Prod.fst).Nodup) (n : String) (v : α) (h : (n, v) ∈ l) :
    lookupName l n = some v := by
  induction l with
  | nil => cases h
  | cons p rest ih =>
    rw [List.map_cons, List.nodup_cons] at hnd
    rcases List.mem_cons.mp h with rfl | h'
    · simp [lookupName]
    · rw [lookupName, if_neg ?_]
      · exact ih hnd.2 h'
      · intro hp
        exact hnd.1 (hp ▸ List.mem_map.mpr ⟨(n, v), h', rfl⟩)

/-! scanDeps lemmas. -/

theorem scanDeps_mem_stack (visited path : List String) :
    ∀ (ds stack : List String) (x : String), x ∈ stack →
      x ∈ (scanDeps visited path ds stack).2 := by
  intro ds
  induction ds with
  | nil => intro stack x hx; exact hx
  | cons d ds ih =>
    intro stack x hx
    rw [scanDeps]
    by_cases hv : d ∈ visited
    · rw [if_neg (by simp [hv])]
      by_cases hp : d ∈ path
      · rw [if_pos hp]; exact hx
      · rw [if_neg hp]; exact ih stack x hx
    · rw [if_pos (by simp [hv])]
      exact ih (d :: stack) x (List.mem_cons_of_mem d hx)

theorem scanDeps_none_mem (visited path : List String) :
    ∀ (ds stack stack1 : List String),
      scanDeps visited path ds stack = (none, stack1) →
      ∀ d ∈ ds, d ∉ visited → d ∈ stack1 := by
  intro ds
  induction ds with
  | nil => intro stack stack1 _ d hd; cases hd
  | cons d0 ds ih =>
    intro stack stack1 hscan d hd hdv
    rw [scanDeps] at hscan
    by_cases hv : d0 ∈ visited
    · rw [if_neg (by simp [hv])] at hscan
      by_cases hp : d0 ∈ path
      · rw [if_pos hp] at hscan; cases hscan
      · rw [if_neg hp] at hscan
        rcases List.mem_cons.mp hd with rfl | hd'
        · exact absurd hv hdv
        · exact ih stack stack1 hscan d hd' hdv
    · rw [if_pos (by simp [hv])] at hscan
      rcases List.mem_cons.mp hd with rfl | hd'
      · have : d ∈ (scanDeps visited path ds (d :: stack)).2 :=
          scanDeps_mem_stack visited path ds (d :: stack) d (List.mem_cons_self d stack)
        rw [hscan] at this
        exact this
      · exact ih (d0 :: stack) stack1 hscan d hd' hdv

theorem scanDeps_snd_sub (visited path : List String) :
    ∀ (ds stack : List String) (x : String),
      x ∈ (scanDeps visited path ds stack).2 → x ∈ ds ∨ x ∈ stack := by
  intro ds
  induction ds with
  | nil => intro stack x hx; exact Or.inr hx
  | cons d ds ih =>
    intro stack x hx
    rw [scanDeps] at hx
    by_cases hv : d ∈ visited
    · rw [if_neg (by simp [hv])] at hx
      by_cases hp : d ∈ path
      · rw [if_pos hp] at hx
        exact Or.inr hx
      · rw [if_neg hp] at hx
        rcases ih stack x hx with h | h
        · exact Or.inl (List.mem_cons_of_mem d h)
        · exact Or.inr h
    · rw [if_pos (by simp [hv])] at hx
      rcases ih (d :: stack) x hx with h | h
      · exact Or.inl (List.mem_cons_of_mem d h)
      · rcases List.mem_cons.mp h with rfl | h'
        · exact Or.inl (List.mem_cons_self x ds)
        · exact Or.inr h'

/-! A dangling dependency name, once on the stack, dooms the search: it can
never be visited (lookup fails first), and it can only leave the stack by
surfacing as head, which raises `InvalidStructure`. -/

theorem dfsInner_ne_ok_of_dangling_on_stack (wls : List (String × WorkloadSpec))
    (d0 : String) (hd0 : d0 ∉ wls.map Prod.fst) :
    ∀ (fuel : Nat) (stack visited path : List String), d0 ∈ stack →
      ∀ visited1, dfsInner wls fuel stack visited path ≠ some (.ok visited1) := by
  intro fuel
  induction fuel with
  | zero =>
    intro stack visited path hmem visited1 h
    simp [dfsInner] at h
  | succ fuel ih =>
    intro stack visited path hmem visited1 h
    cases stack with
    | nil => cases hmem
    | cons head rest =>
      by_cases hhead : head = d0
      · subst hhead
        have hl : lookupName wls head = none :=
          (lookupName_eq_none_iff wls head).mpr hd0
        simp [dfsInner, hl] at h
      · have hrest : d0 ∈ rest := by
          rcases List.mem_cons.mp hmem with h' | h'
          · exact absurd h'.symm hhead
          · exact h'
        cases hl : lookupName wls head with
        | none => simp [dfsInner, hl] at h
        | some spec =>
          simp only [dfsInner, hl] at h
          by_cases hv : head ∈ visited
          · rw [if_pos hv] at h
            cases hs : scanDeps visited path.dropLast (sortedDeps spec) rest with
            | mk o stack1 =>
              cases o with
              | some d => simp [hs] at h
              | none =>
                simp only [hs] at h
                have hmem1 : d0 ∈ stack1 := by
                  have := scanDeps_mem_stack visited path.dropLast
                    (sortedDeps spec) rest d0 hrest
                  rw [hs] at this
                  exact this
                exact ih stack1 visited path.dropLast hmem1 visited1 h
          · rw [if_neg hv] at h
            cases hs : scanDeps (head :: visited) (path ++ [head])
                (sortedDeps spec) (head :: rest) with
            | mk o stack1 =>
              cases o with
              | some d => simp [hs] at h
              | none =>
                simp only [hs] at h
                have hmem1 : d0 ∈ stack1 := by
                  have := scanDeps_mem_stack (head :: visited) (path ++ [head])
                    (sortedDeps spec) (head :: rest) d0 (List.mem_cons_of_mem head hrest)
                  rw [hs] at this
                  exact this
                exact ih stack1 (head :: visited) (path ++ [head]) hmem1 visited1 h

/-- If the workload owning the dangling dependency is on the stack and not yet
visited, the search cannot end in `Ok`: visiting it pushes the dangling name. -/
theorem dfsInner_ne_ok_of_start_on_stack (wls : List (String × WorkloadSpec))
    (hnd : (wls.map Prod.fst).Nodup) (w0 : String) (spec0 : WorkloadSpec)
    (d0 : String) (hmem0 : (w0, spec0) ∈ wls) (hdep0 : d0 ∈ depNames spec0)
    (hd0 : d0 ∉ wls.map Prod.fst) :
    ∀ (fuel : Nat) (stack visited path : List String),
      (∀ x ∈ visited, x ∈ wls.map Prod.fst) → w0 ∉ visited → w0 ∈ stack →
      ∀ visited1, dfsInner wls fuel stack visited path ≠ some (.ok visited1) := by
  intro fuel
  induction fuel with
  | zero =>
    intro stack visited path _ _ _ visited1 h
    simp [dfsInner] at h
  | succ fuel ih =>
    intro stack visited path hvk hw0v hw0s visited1 h
    cases stack with
    | nil => cases hw0s
    | cons head rest =>
      by_cases hhead : head = w0
      · subst hhead
        have hl : lookupName wls head = some spec0 :=
          lookupName_of_mem_nodup wls hnd head spec0 hmem0
        simp only [dfsInner, hl] at h
        rw [if_neg hw0v] at h
        cases hs : scanDeps (head :: visited) (path ++ [head]) (sortedDeps spec0)
            (head :: rest) with
        | mk o stack1 =>
          cases o with
          | some d => simp [hs] at h
          | none =>
            simp only [hs] at h
            have hd0deps : d0 ∈ sortedDeps spec0 := by
              rw [sortedDeps, sortNames]
              exact (List.mem_insertionSort nameLe).mpr hdep0
            have hd0nv : d0 ∉ head :: visited := by
              intro hc
              rcases List.mem_cons.mp hc with rfl | hc'
              · exact hd0 (List.mem_map.mpr ⟨(d0, spec0), hmem0, rfl⟩)
              · exact hd0 (hvk d0 hc')
            have hmem1 : d0 ∈ stack1 :=
              scanDeps_none_mem (head :: visited) (path ++ [head]) (sortedDeps spec0)
                (head :: rest) stack1 hs d0 hd0deps hd0nv
            exact dfsInner_ne_ok_of_dangling_on_stack wls d0 hd0 fuel stack1
              (head :: visited) (path ++ [head]) hmem1 visited1 h
      · have hrest : w0 ∈ rest := by
          rcases List.mem_cons.mp hw0s with h' | h'
          · exact absurd h'.symm hhead
          · exact h'
        cases hl : lookupName wls head with
        | none => simp [dfsInner, hl] at h
        | some spec =>
          simp only [dfsInner, hl] at h
          by_cases hv : head ∈ visited
          · rw [if_pos hv] at h
            cases hs : scanDeps visited path.dropLast (sortedDeps spec) rest with
            | mk o stack1 =>
              cases o with
              | some d => simp [hs] at h
              | none =>
                simp only [hs] at h
                have hmem1 : w0 ∈ stack1 := by
                  have := scanDeps_mem_stack visited path.dropLast
                    (sortedDeps spec) rest w0 hrest
                  rw [hs] at this
                  exact this
                exact ih stack1 visited path.dropLast hvk hw0v hmem1 visited1 h
          · rw [if_neg hv] at h
            cases hs : scanDeps (head :: visited) (path ++ [head])
                (sortedDeps spec) (head :: rest) with
            | mk o stack1 =>
              cases o with
              | some d => simp [hs] at h
              | none =>
                simp only [hs] at h
                have hvk1 : ∀ x ∈ head :: visited, x ∈ wls.map Prod.fst := by
                  intro x hx
                  rcases List.mem_cons.mp hx with rfl | hx'
                  · exact List.mem_map.mpr ⟨(x, spec), lookupName_mem wls x spec hl, rfl⟩
                  · exact hvk x hx'
                have hw0v1 : w0 ∉ head :: visited := by
                  intro hc
                  rcases List.mem_cons.mp hc with h' | h'
                  · exact hhead h'.symm
                  · exact hw0v h'
                have hmem1 : w0 ∈ stack1 := by
                  have := scanDeps_mem_stack (head :: visited) (path ++ [head])
                    (sortedDeps spec) (head :: rest) w0 (List.mem_cons_of_mem head hrest)
                  rw [hs] at this
                  exact this
                exact ih stack1 (head :: visited) (path ++ [head]) hvk1 hw0v1 hmem1
                  visited1 h

/-- An inner run that ends in `Ok` keeps the visited set inside the state's
keys and never visits the workload owning the dangling dependency. -/
theorem dfsInner_ok_preserves (wls : List (String × WorkloadSpec))
    (hnd : (wls.map Prod.fst).Nodup) (w0 : String) (spec0 : WorkloadSpec)
    (d0 : String) (hmem0 : (w0, spec0) ∈ wls) (hdep0 : d0 ∈ depNames spec0)
    (hd0 : d0 ∉ wls.map Prod.fst) :
    ∀ (fuel : Nat) (stack visited path visited1 : List String),
      (∀ x ∈ visited, x ∈ wls.map Prod.fst) → w0 ∉ visited →
      dfsInner wls fuel stack visited path = some (.ok visited1) →
      (∀ x ∈ visited1, x ∈ wls.map Prod.fst) ∧ w0 ∉ visited1 := by
  intro fuel
  induction fuel with
  | zero =>
    intro stack visited path visited1 _ _ h
    simp [dfsInner] at h
  | succ fuel ih =>
    intro stack visited path visited1 hvk hw0v h
    cases stack with
    | nil =>
      simp only [dfsInner, Option.some.injEq, Except.ok.injEq] at h
      exact h ▸ ⟨hvk, hw0v⟩
    | cons head rest =>
      by_cases hhead : head = w0
      · subst hhead
        exact absurd h (dfsInner_ne_ok_of_start_on_stack wls hnd head spec0 d0 hmem0
          hdep0 hd0 (fuel + 1) (head :: rest) visited path hvk hw0v
          (List.mem_cons_self head rest) visited1)
      · cases hl : lookupName wls head with
        | none => simp [dfsInner, hl] at h
        | some spec =>
          simp only [dfsInner, hl] at h
          by_cases hv : head ∈ visited
          · rw [if_pos hv] at h
            cases hs : scanDeps visited path.dropLast (sortedDeps spec) rest with
            | mk o stack1 =>
              cases o with
              | some d => simp [hs] at h
              | none =>
                simp only [hs] at h
                exact ih stack1 visited path.dropLast visited1 hvk hw0v h
          · rw [if_neg hv] at h
            cases hs : scanDeps (head :: visited) (path ++ [head])
                (sortedDeps spec) (head :: rest) with
            | mk o stack1 =>
              cases o with
              | some d => simp [hs] at h
              | none =>
                simp only [hs] at h
                have hvk1 : ∀ x ∈ head :: visited, x ∈ wls.map Prod.fst := by
                  intro x hx
                  rcases List.mem_cons.mp hx with rfl | hx'
                  · exact List.mem_map.mpr ⟨(x, spec), lookupName_mem wls x spec hl, rfl⟩
                  · exact hvk x hx'
                have hw0v1 : w0 ∉ head :: visited := by
                  intro hc
                  rcases List.mem_cons.mp hc with h' | h'
                  · exact hhead h'.symm
                  · exact hw0v h'
                exact ih stack1 (head :: visited) (path ++ [head]) visited1 hvk1 hw0v1 h

theorem dfsOuter_ne_ok (wls : List (String × WorkloadSpec))
    (hnd : (wls.map Prod.fst).Nodup) (w0 : String) (spec0 : WorkloadSpec)
    (d0 : String) (hmem0 : (w0, spec0) ∈ wls) (hdep0 : d0 ∈ depNames spec0)
    (hd0 : d0 ∉ wls.map Prod.fst) (fuel : Nat) :
    ∀ (starts visited : List String),
      (∀ x ∈ visited, x ∈ wls.map Prod.fst) → w0 ∉ visited → w0 ∈ starts →
      dfsOuter wls fuel starts visited ≠ some (.ok ()) := by
  intro starts
  induction starts with
  | nil => intro visited _ _ hw0; cases hw0
  | cons w ws ih =>
    intro visited hvk hw0v hw0s h
    simp only [dfsOuter] at h
    by_cases hv : w ∈ visited
    · rw [if_pos hv] at h
      have hws : w0 ∈ ws := by
        rcases List.mem_cons.mp hw0s with rfl | h'
        · exact absurd hv hw0v
        · exact h'
      exact ih visited hvk hw0v hws h
    · rw [if_neg hv] at h
      cases hi : dfsInner wls fuel [w] visited [] with
      | none => simp [hi] at h
      | some r =>
        cases r with
        | error e => simp [hi] at h
        | ok visited1 =>
          simp only [hi] at h
          by_cases hw : w = w0
          · subst hw
            exact dfsInner_ne_ok_of_start_on_stack wls hnd w spec0 d0 hmem0 hdep0
              hd0 fuel [w] visited [] hvk hw0v (List.mem_singleton.mpr rfl)
              visited1 hi
          · obtain ⟨hvk1, hw0v1⟩ := dfsInner_ok_preserves wls hnd w0 spec0 d0 hmem0
              hdep0 hd0 fuel [w] visited [] visited1 hvk hw0v hi
            have hws : w0 ∈ ws := by
              rcases List.mem_cons.mp hw0s with h' | h'
              · exact absurd h'.symm hw
              · exact h'
            exact ih visited1 hvk1 hw0v1 hws h

/-- When the search raises `InvalidStructure`, the offending head came from
the stack, whose members are all keys or dependency names; a missing one is
therefore a dangling dependency name, and the message has the fixed form. -/
theorem dfsInner_invalid_msg (wls : List (String × WorkloadSpec)) :
    ∀ (fuel : Nat) (stack visited path : List String) (msg : String),
      (∀ x ∈ stack, x ∈ wls.map Prod.fst ∨ ∃ p ∈ wls, x ∈ depNames p.2) →
      dfsInner wls fuel stack visited path = some (.error (.invalidStructure msg)) →
      ∃ d, (∃ p ∈ wls, d ∈ depNames p.2) ∧ d ∉ wls.map Prod.fst ∧
        msg = missingWorkloadMsg d := by
  intro fuel
  induction fuel with
  | zero =>
    intro stack visited path msg _ h
    simp [dfsInner] at h
  | succ fuel ih =>
    intro stack visited path msg hwf h
    cases stack with
    | nil => simp [dfsInner] at h
    | cons head rest =>
      cases hl : lookupName wls head with
      | none =>
        simp only [dfsInner, hl, Option.some.injEq, Except.error.injEq,
          CyclicCheckResult.invalidStructure.injEq] at h
        have hkeys : head ∉ wls.map Prod.fst := (lookupName_eq_none_iff wls head).mp hl
        rcases hwf head (List.mem_cons_self head rest) with hk | hdep
        · exact absurd hk hkeys
        · exact ⟨head, hdep, hkeys, h.symm⟩
      | some spec =>
        simp only [dfsInner, hl] at h
        have hspecmem : (head, spec) ∈ wls := lookupName_mem wls head spec hl
        by_cases hv : head ∈ visited
        · rw [if_pos hv] at h
          cases hs : scanDeps visited path.dropLast (sortedDeps spec) rest with
          | mk o stack1 =>
            cases o with
            | some d => simp [hs] at h
            | none =>
              simp only [hs] at h
              refine ih stack1 visited path.dropLast msg ?_ h
              intro x hx
              have hx' := scanDeps_snd_sub visited path.dropLast (sortedDeps spec)
                rest x (by rw [hs]; exact hx)
              rcases hx' with hxd | hxs
              · refine Or.inr ⟨(head, spec), hspecmem, ?_⟩
                rw [sortedDeps, sortNames] at hxd
                exact (List.mem_insertionSort nameLe).mp hxd
              · exact hwf x (List.mem_cons_of_mem head hxs)
        · rw [if_neg hv] at h
          cases hs : scanDeps (head :: visited) (path ++ [head]) (sortedDeps spec)
              (head :: rest) with
          | mk o stack1 =>
            cases o with
            | some d => simp [hs] at h
            | none =>
              simp only [hs] at h
              refine ih stack1 (head :: visited) (path ++ [head]) msg ?_ h
              intro x hx
              have hx' := scanDeps_snd_sub (head :: visited) (path ++ [head])
                (sortedDeps spec) (head :: rest) x (by rw [hs]; exact hx)
              rcases hx' with hxd | hxs
              · refine Or.inr ⟨(head, spec), hspecmem, ?_⟩
                rw [sortedDeps, sortNames] at hxd
                exact (List.mem_insertionSort nameLe).mp hxd
              · exact hwf x hxs

theorem dfsOuter_invalid_msg (wls : List (String × WorkloadSpec)) (fuel : Nat) :
    ∀ (starts visited : List String) (msg : String),
      (∀ x ∈ starts, x ∈ wls.map Prod.fst) →
      dfsOuter wls fuel starts visited = some (.error (.invalidStructure msg)) →
      ∃ d, (∃ p ∈ wls, d ∈ depNames p.2) ∧ d ∉ wls.map Prod.fst ∧
        msg = missingWorkloadMsg d := by
  intro starts
  induction starts with
  | nil =>
    intro visited msg _ h
    simp [dfsOuter] at h
  | cons w ws ih =>
    intro visited msg hstarts h
    simp only [dfsOuter] at h
    by_cases hv : w ∈ visited
    · rw [if_pos hv] at h
      exact ih visited msg (fun x hx => hstarts x (List.mem_cons_of_mem w hx)) h
    · rw [if_neg hv] at h
      cases hi : dfsInner wls fuel [w] visited [] with
      | none => simp [hi] at h
      | some r =>
        cases r with
        | ok visited1 =>
          simp only [hi] at h
          exact ih visited1 msg (fun x hx => hstarts x (List.mem_cons_of_mem w hx)) h
        | error e =>
          simp only [hi] at h
          cases e with
          | workloadPartOfCycle wname => simp at h
          | invalidStructure m =>
            simp only [Option.some.injEq, Except.error.injEq,
              CyclicCheckResult.invalidStructure.injEq] at h
            subst h
            refine dfsInner_invalid_msg wls fuel [w] visited [] m ?_ hi
            intro x hx
            rcases List.mem_cons.mp hx with rfl | hx'
            · exact Or.inl (hstarts x (List.mem_cons_self x ws))
            · cases hx'

/-- C6 (amended): a desired state with a dangling dependency name is never
admitted: the checker cannot return `Ok` (first conjunct); when it returns
`InvalidStructure`, the message is exactly
`workload '<d>' is not part of the state.` for some dangling dependency name
`d` (second conjunct; the remaining possibility, shown reachable by the
counterexample, is `WorkloadPartOfCycle` when a cycle is reported first); and
the scenario-S7 state `{A → B, B → C}` with no `C` yields exactly
`InvalidStructure("workload 'C' is not part of the state.")` (third
conjunct). -/
theorem dangling_dependency_never_ok (wls : List (String × WorkloadSpec))
    (hnd : (wls.map Prod.fst).Nodup) (w0 : String) (spec0 : WorkloadSpec)
    (d0 : String) (hmem0 : (w0, spec0) ∈ wls) (hdep0 : d0 ∈ depNames spec0)
    (hd0 : d0 ∉ wls.map Prod.fst) :
    (∀ fuel, dfs fuel wls ≠ some (.ok ()))
    ∧ (∀ fuel msg, dfs fuel wls = some (.error (.invalidStructure msg)) →
        ∃ d, (∃ p ∈ wls, d ∈ depNames p.2) ∧ d ∉ wls.map Prod.fst ∧
          msg = missingWorkloadMsg d)
    ∧ dfs 100 danglingChainState =
        some (.error (.invalidStructure "workload \x27C\x27 is not part of the state.")) := by
  refine ⟨?_, ?_, by decide⟩
  · intro fuel
    refine dfsOuter_ne_ok wls hnd w0 spec0 d0 hmem0 hdep0 hd0 fuel
      (sortedKeys wls) [] (by intro x hx; cases hx) (by intro hc; cases hc) ?_
    rw [sortedKeys, sortNames]
    exact (List.mem_insertionSort nameLe).mpr
      (List.mem_map.mpr ⟨(w0, spec0), hmem0, rfl⟩)
  · intro fuel msg h
    refine dfsOuter_invalid_msg wls fuel (sortedKeys wls) [] msg ?_ h
    intro x hx
    rw [sortedKeys, sortNames] at hx
    exact (List.mem_insertionSort nameLe).mp hx

/-- Witness for the amended C6 at a concrete input: on the S7 chain state the
checker can never answer `Ok` (shown here at fuel 100). -/
theorem dangling_dependency_never_ok_witness :
    dfs 100 danglingChainState ≠ some (.ok ()) :=
  (dangling_dependency_never_ok danglingChainState (by decide) "B"
    ⟨⟨"B", "agent_A"⟩, [("C", .addCondRunning)]⟩ "C" (by decide) (by decide)
    (by decide)).1 100

/-! Determinism of the cycle check under map iteration order. -/

/-- Two specs carrying the same instance name and the same dependency
key-value pairs (in any order). -/
def specEquiv (sp1 sp2 : WorkloadSpec) : Prop :=
  sp1.instanceName = sp2.instanceName ∧ sp1.dependencies.Perm sp2.dependencies

/-- The search visits the state only through the sorted dependency lists of
looked-up specs, so two states agreeing on those agree on every step. -/
theorem dfsInner_congr (wls1 wls2 : List (String × WorkloadSpec))
    (hlook : ∀ n, (lookupName wls1 n).map sortedDeps =
      (lookupName wls2 n).map sortedDeps) :
    ∀ (fuel : Nat) (stack visited path : List String),
      dfsInner wls1 fuel stack visited path = dfsInner wls2 fuel stack visited path := by
  intro fuel
  induction fuel with
  | zero => intro stack visited path; simp [dfsInner]
  | succ fuel ih =>
    intro stack visited path
    cases stack with
    | nil => simp [dfsInner]
    | cons head rest =>
      have h := hlook head
      cases hl1 : lookupName wls1 head with
      | none =>
        cases hl2 : lookupName wls2 head with
        | none => simp [dfsInner, hl1, hl2]
        | some spec2 => rw [hl1, hl2] at h; simp at h
      | some spec1 =>
        cases hl2 : lookupName wls2 head with
        | none => rw [hl1, hl2] at h; simp at h
        | some spec2 =>
          rw [hl1, hl2] at h
          simp only [Option.map_some', Option.some.injEq] at h
          simp only [dfsInner, hl1, hl2]
          by_cases hv : head ∈ visited
          · rw [if_pos hv, if_pos hv, h]
            cases hs : scanDeps visited path.dropLast (sortedDeps spec2) rest with
            | mk o stack1 =>
              cases o with
              | some d => rfl
              | none => exact ih stack1 visited path.dropLast
          · rw [if_neg hv, if_neg hv, h]
            cases hs : scanDeps (head :: visited) (path ++ [head])
                (sortedDeps spec2) (head :: rest) with
            | mk o stack1 =>
              cases o with
              | some d => rfl
              | none => exact ih stack1 (head :: visited) (path ++ [head])

theorem dfsOuter_congr (wls1 wls2 : List (String × WorkloadSpec))
    (hlook : ∀ n, (lookupName wls1 n).map sortedDeps =
      (lookupName wls2 n).map sortedDeps) (fuel : Nat) :
    ∀ (starts visited : List String),
      dfsOuter wls1 fuel starts visited = dfsOuter wls2 fuel starts visited := by
  intro starts
  induction starts with
  | nil => intro visited; simp [dfsOuter]
  | cons w ws ih =>
    intro visited
    simp only [dfsOuter]
    by_cases hv : w ∈ visited
    · rw [if_pos hv, if_pos hv]
      exact ih visited
    · rw [if_neg hv, if_neg hv, dfsInner_congr wls1 wls2 hlook fuel [w] visited []]
      cases hi : dfsInner wls2 fuel [w] visited [] with
      | none => rfl
      | some r =>
        cases r with
        | error e => rfl
        | ok visited1 => exact ih visited1

/-- C7: the cycle checker is deterministic in the state, not its iteration
order: for two association-list representations whose workloads maps hold the
same keys and, per key, specs with the same dependency pairs (in any order),
the checker returns the same result at every fuel — including the same
reported participant when the result is `WorkloadPartOfCycle`. -/
theorem cyclic_check_deterministic (wls1 wls2 : List (String × WorkloadSpec))
    (hkeys : (wls1.map Prod.fst).Perm (wls2.map Prod.fst))
    (hspec : ∀ p ∈ wls1, ∀ sp2, lookupName wls2 p.1 = some sp2 →
      specEquiv p.2 sp2) :
    ∀ fuel, dfs fuel wls1 = dfs fuel wls2 := by
  have hlook : ∀ n, (lookupName wls1 n).map sortedDeps =
      (lookupName wls2 n).map sortedDeps := by
    intro n
    cases hl1 : lookupName wls1 n with
    | none =>
      have hn1 : n ∉ wls1.map Prod.fst := (lookupName_eq_none_iff wls1 n).mp hl1
      have hn2 : n ∉ wls2.map Prod.fst := fun hc => hn1 (hkeys.mem_iff.mpr hc)
      rw [(lookupName_eq_none_iff wls2 n).mpr hn2]
    | some sp1 =>
      have hmem1 : (n, sp1) ∈ wls1 := lookupName_mem wls1 n sp1 hl1
      cases hl2 : lookupName wls2 n with
      | none =>
        have hn2 := (lookupName_eq_none_iff wls2 n).mp hl2
        have hn1 : n ∈ wls1.map Prod.fst := List.mem_map.mpr ⟨(n, sp1), hmem1, rfl⟩
        exact absurd (hkeys.mem_iff.mp hn1) hn2
      | some sp2 =>
        obtain ⟨-, hdeps⟩ := hspec (n, sp1) hmem1 sp2 hl2
        simp only [Option.map_some']
        congr 1
        rw [sortedDeps, sortedDeps, depNames, depNames]
        exact sortNames_eq_of_perm _ _ (hdeps.map Prod.fst)
  intro fuel
  rw [dfs, dfs, show sortedKeys wls1 = sortedKeys wls2 from
    sortNames_eq_of_perm _ _ hkeys]
  exact dfsOuter_congr wls1 wls2 hlook fuel (sortedKeys wls2) []

/-- A two-workload state in one iteration order. -/
def permStateA : List (String × WorkloadSpec) :=
  [("a", ⟨⟨"a", "agent_A"⟩, [("a", .addCondRunning), ("b", .addCondSucceeded)]⟩),
   ("b", ⟨⟨"b", "agent_A"⟩, []⟩)]

/-- The same state with both the workloads map and the dependency map of `a`
iterated in the opposite order. -/
def permStateB : List (String × WorkloadSpec) :=
  [("b", ⟨⟨"b", "agent_A"⟩, []⟩),
   ("a", ⟨⟨"a", "agent_A"⟩, [("b", .addCondSucceeded), ("a", .addCondRunning)]⟩)]

/-- Witness for C7 at a concrete input: the two iteration orders of the same
state produce identical checker results. -/
theorem cyclic_check_deterministic_witness :
    dfs 100 permStateA = dfs 100 permStateB := by
  refine cyclic_check_deterministic permStateA permStateB (by decide) ?_ 100
  intro p hp sp2 h2
  fin_cases hp
  · rw [show lookupName permStateB "a" =
        some ⟨⟨"a", "agent_A"⟩, [("b", .addCondSucceeded), ("a", .addCondRunning)]⟩
      from by decide] at h2
    cases h2
    exact ⟨rfl, by decide⟩
  · rw [show lookupName permStateB "b" = some ⟨⟨"b", "agent_A"⟩, []⟩
      from by decide] at h2
    cases h2
    exact ⟨rfl, by decide⟩

end Ankaios
